import Mathlib

/-!
Fenced loads and stores of control fields: `barrier.h` of pybpfmap.

A shallow embedding of the four inline functions of `src/pybpfmap/barrier.h`
and of the `READ_ONCE` / `WRITE_ONCE` accesses they are built from.

* The shared region the `void *p` argument points at is a list of bytes;
  byte `i` of the list is the byte at address `p + i`.
* Every function is a state transformer on a `Machine`: the bytes of the
  region together with the sequence of memory events (volatile read, volatile
  write, full fence) performed so far, oldest first.
* An access whose behaviour C leaves undefined (outside the region, or at an
  address that is not aligned for the accessed type) yields `none`.
* Data model: `unsigned int` is 4 bytes and `unsigned long int` is 8 bytes
  (LP64, the data model of the 64-bit Linux targets of the library); the byte
  order of the target is a parameter.
-/

namespace Pybpfmap

/-- One byte of the shared region. -/
abbrev Byte := Fin 256

/-- Byte order of the target machine. -/
inductive Endian where
  | little
  | big
  deriving DecidableEq, Repr

/-- A memory event as seen by the memory system. -/
inductive Event where
  | read (offset width value : Nat)
  | write (offset width value : Nat)
  | fence
  deriving DecidableEq, Repr

/-- The shared region and the memory events performed on it so far. -/
structure Machine where
  mem : List Byte
  trace : List Event
  deriving DecidableEq, Repr

/-- Size in bytes of `unsigned int`. -/
def sizeof_unsigned_int : Nat := 4

/-- Size in bytes of `unsigned long int`. -/
def sizeof_unsigned_long_int : Nat := 8

/-- The `w` low-order bytes of `v`, least significant first. -/
def encodeLE : Nat → Nat → List Byte
  | 0, _ => []
  | w + 1, v => ⟨v % 256, Nat.mod_lt v (by decide)⟩ :: encodeLE w (v / 256)

/-- The number whose base-256 digits are `bs`, least significant first. -/
def decodeLE : List Byte → Nat
  | [] => 0
  | b :: bs => b.val + 256 * decodeLE bs

/-- Object representation of the `w`-byte unsigned integer `v % 2^(8w)`. -/
def toBytes (e : Endian) (w v : Nat) : List Byte :=
  match e with
  | Endian.little => encodeLE w v
  | Endian.big => (encodeLE w v).reverse

/-- Value of the unsigned integer whose object representation is `bs`. -/
def fromBytes (e : Endian) (bs : List Byte) : Nat :=
  match e with
  | Endian.little => decodeLE bs
  | Endian.big => decodeLE bs.reverse

/-- The `w` bytes of the region starting at byte `loc`. -/
def readBytes (mem : List Byte) (loc w : Nat) : List Byte :=
  (mem.drop loc).take w

/-- The region with the bytes from `loc` on replaced by `bs`. -/
def writeBytes (mem : List Byte) (loc : Nat) (bs : List Byte) : List Byte :=
  mem.take loc ++ bs ++ mem.drop (loc + bs.length)

/-- The lvalue `*((T *)loc)` with `sizeof(T) = w` designates an object of the
region: it lies inside the region and `loc` is aligned for `T`. -/
def validAccess (mem : List Byte) (loc w : Nat) : Prop :=
  loc + w ≤ mem.length ∧ loc % w = 0

instance (mem : List Byte) (loc w : Nat) : Decidable (validAccess mem loc w) := by
  unfold validAccess
  infer_instance

/-- The macro `READ_ONCE(*((T *)loc))` with `sizeof(T) = w`: one volatile read of the
whole object, `({ typeof(x) ___x = ACCESS_ONCE(x); ___x; })`. -/
def READ_ONCE (e : Endian) (w loc : Nat) (m : Machine) : Option (Nat × Machine) :=
  if validAccess m.mem loc w then
    let x := fromBytes e (readBytes m.mem loc w)
    some (x, { m with trace := m.trace ++ [Event.read loc w x] })
  else none

/-- The macro `WRITE_ONCE(*((T *)loc), val)` with `sizeof(T) = w`: one volatile write of
the whole object, `do { ACCESS_ONCE(x) = (val); } while (0)`; the assignment
converts `val` to `T`. -/
def WRITE_ONCE (e : Endian) (w loc val : Nat) (m : Machine) : Option Machine :=
  if validAccess m.mem loc w then
    let x := val % 2 ^ (8 * w)
    some { mem := writeBytes m.mem loc (toBytes e w x),
           trace := m.trace ++ [Event.write loc w x] }
  else none

/-- The builtin `__sync_synchronize()`: a full memory barrier. -/
def __sync_synchronize (m : Machine) : Machine :=
  { m with trace := m.trace ++ [Event.fence] }

/-- The function `smp_load_acquire_long_int(p, offset)`, lines 11-19. -/
def smp_load_acquire_long_int (e : Endian) (m : Machine) (offset : Nat) :
    Option (Nat × Machine) :=
  let loc := 0          -- char *loc = (char *)p;
  let loc := loc + offset
  match READ_ONCE e sizeof_unsigned_long_int loc m with
  | none => none
  | some (res, m1) =>
    let m2 := __sync_synchronize m1
    some (res, m2)

/-- The function `smp_store_release_long_int(p, offset, value)`, lines 21-29. -/
def smp_store_release_long_int (e : Endian) (m : Machine) (offset value : Nat) :
    Option Machine :=
  let value := value % 2 ^ 64   -- parameter of type unsigned long int
  let loc := 0          -- char *loc = (char *)p;
  let loc := loc + offset
  match WRITE_ONCE e sizeof_unsigned_long_int loc value m with
  | none => none
  | some m1 => some (__sync_synchronize m1)

/-- The function `smp_load_acquire_int(p, offset)`, lines 31-39: the `unsigned int` read
is returned as an `unsigned long int`. -/
def smp_load_acquire_int (e : Endian) (m : Machine) (offset : Nat) :
    Option (Nat × Machine) :=
  let loc := 0          -- char *loc = (char *)p;
  let loc := loc + offset
  match READ_ONCE e sizeof_unsigned_int loc m with
  | none => none
  | some (res, m1) =>
    let m2 := __sync_synchronize m1
    some (res % 2 ^ 64, m2)

/-- The function `smp_store_release_int(p, offset, value)`, lines 41-49. -/
def smp_store_release_int (e : Endian) (m : Machine) (offset value : Nat) :
    Option Machine :=
  let value := value % 2 ^ 32   -- parameter of type unsigned int
  let loc := 0          -- char *loc = (char *)p;
  let loc := loc + offset
  match WRITE_ONCE e sizeof_unsigned_int loc value m with
  | none => none
  | some m1 => some (__sync_synchronize m1)

/-- The two widths of a control field. -/
inductive Width where
  | w32
  | w64
  deriving DecidableEq, Repr

/-- Number of bytes of a control field of the given width. -/
def Width.bytes : Width → Nat
  | Width.w32 => sizeof_unsigned_int
  | Width.w64 => sizeof_unsigned_long_int

/-- The acquire load of the given width. -/
def acquire_load (e : Endian) : Width → Machine → Nat → Option (Nat × Machine)
  | Width.w32 => smp_load_acquire_int e
  | Width.w64 => smp_load_acquire_long_int e

/-- The release store of the given width. -/
def release_store (e : Endian) : Width → Machine → Nat → Nat → Option Machine
  | Width.w32 => smp_store_release_int e
  | Width.w64 => smp_store_release_long_int e

/-- A region of `n` zero bytes on which nothing has happened yet. -/
def zeroed (n : Nat) : Machine :=
  { mem := List.replicate n 0, trace := [] }

/-- An event stays inside a region of `n` bytes. -/
def Event.inBounds (n : Nat) : Event → Prop
  | Event.read offset width _ => offset + width ≤ n
  | Event.write offset width _ => offset + width ≤ n
  | Event.fence => True

instance (n : Nat) (ev : Event) : Decidable (ev.inBounds n) := by
  cases ev <;> unfold Event.inBounds <;> infer_instance

/-- A producer and a consumer sharing one control field: the region, the value
of the producer's latest release store (before its first store: the value its
first store has to reach, 0 when there is none), and the values the consumer's
acquire loads have returned so far, oldest first. -/
structure System where
  machine : Machine
  last : Nat
  observed : List Nat
  deriving DecidableEq, Repr

/-- One step of the system: the producer release-stores `v`, or the consumer
acquire-loads. -/
inductive Action where
  | produce (v : Nat)
  | consume
  deriving DecidableEq, Repr

/-- One step on the control field of width `w` at `offset`. The producer stores
a value of the field's type that is not smaller than the one it stored before;
the consumer records what its load returns. `none` when the action is not one
the producer may take, or the access is undefined. -/
def step (e : Endian) (w : Width) (offset : Nat) (s : System) : Action → Option System
  | Action.produce v =>
    if s.last ≤ v ∧ v < 2 ^ (8 * w.bytes) then
      match release_store e w s.machine offset v with
      | none => none
      | some m1 => some { machine := m1, last := v, observed := s.observed }
    else none
  | Action.consume =>
    match acquire_load e w s.machine offset with
    | none => none
    | some (x, m1) => some { machine := m1, last := s.last, observed := s.observed ++ [x] }

/-- An interleaving: the steps of `acts` taken in order. -/
def run (e : Endian) (w : Width) (offset : Nat) (s : System) : List Action → Option System
  | [] => some s
  | a :: acts =>
    match step e w offset s a with
    | none => none
    | some s1 => run e w offset s1 acts

/-- A sample start: 8 zero bytes, the producer's counter at 0, nothing observed. -/
def sampleStart : System :=
  { machine := zeroed 8, last := 0, observed := [] }

/-- The state `sampleStart` reaches by a load, a 32-bit store of 7 at offset 4
and a second load. -/
def sampleEnd : System :=
  { machine :=
      { mem := [0, 0, 0, 0, 7, 0, 0, 0],
        trace := [Event.read 4 4 0, Event.fence, Event.write 4 4 7, Event.fence,
                  Event.read 4 4 7, Event.fence] },
    last := 7,
    observed := [0, 7] }

/-- A start in which the field already holds 100 and the producer has stored
nothing yet: 8 bytes, the 32-bit field at offset 0, nothing observed. -/
def staleStart : System :=
  { machine := { mem := [100, 0, 0, 0, 0, 0, 0, 0], trace := [] },
    last := 0,
    observed := [] }

/-- The control field holds no more than the producer's latest value, and the
consumer has never seen a value larger than the field's nor a decrease. -/
def FieldInv (e : Endian) (w : Width) (offset : Nat) (s : System) : Prop :=
  validAccess s.machine.mem offset w.bytes ∧
  fromBytes e (readBytes s.machine.mem offset w.bytes) ≤ s.last ∧
  (∀ x ∈ s.observed, x ≤ fromBytes e (readBytes s.machine.mem offset w.bytes)) ∧
  s.observed.Pairwise (fun a b => a ≤ b)

/-! ## Object representations -/

theorem encodeLE_length (w v : Nat) : (encodeLE w v).length = w := by
  induction w generalizing v with
  | zero => rfl
  | succ w ih => simp [encodeLE, ih]

theorem decodeLE_encodeLE (w v : Nat) : decodeLE (encodeLE w v) = v % 256 ^ w := by
  induction w generalizing v with
  | zero => simp [encodeLE, decodeLE, Nat.mod_one]
  | succ w ih =>
    simp only [encodeLE, decodeLE, ih]
    rw [pow_succ, Nat.mul_comm (256 ^ w) 256, Nat.mod_mul]

theorem decodeLE_lt (bs : List Byte) : decodeLE bs < 256 ^ bs.length := by
  induction bs with
  | nil => simp [decodeLE]
  | cons b bs ih =>
    have hb := b.isLt
    simp only [decodeLE, List.length_cons, pow_succ]
    omega

theorem toBytes_length (e : Endian) (w v : Nat) : (toBytes e w v).length = w := by
  cases e <;> simp [toBytes, encodeLE_length]

theorem fromBytes_toBytes (e : Endian) (w v : Nat) :
    fromBytes e (toBytes e w v) = v % 256 ^ w := by
  cases e <;> simp [fromBytes, toBytes, decodeLE_encodeLE]

theorem fromBytes_lt (e : Endian) (bs : List Byte) : fromBytes e bs < 256 ^ bs.length := by
  cases e
  · exact decodeLE_lt bs
  · have h := decodeLE_lt bs.reverse
    simpa [fromBytes] using h

/-! ## Reading and writing runs of bytes -/

theorem readBytes_length (mem : List Byte) (loc w : Nat) (h : loc + w ≤ mem.length) :
    (readBytes mem loc w).length = w := by
  simp [readBytes]
  omega

theorem writeBytes_length (mem : List Byte) (loc : Nat) (bs : List Byte)
    (h : loc + bs.length ≤ mem.length) : (writeBytes mem loc bs).length = mem.length := by
  simp [writeBytes]
  omega

theorem getElem?_readBytes (mem : List Byte) (loc w i : Nat) (h : i < w) :
    (readBytes mem loc w)[i]? = mem[loc + i]? := by
  simp [readBytes, List.getElem?_take, h]

theorem getElem?_writeBytes_of_lt (mem : List Byte) (loc : Nat) (bs : List Byte) (i : Nat)
    (h : loc + bs.length ≤ mem.length) (hi : i < loc) :
    (writeBytes mem loc bs)[i]? = mem[i]? := by
  unfold writeBytes
  rw [List.append_assoc, List.getElem?_append_left (by simp; omega)]
  simp [List.getElem?_take, hi]

theorem getElem?_writeBytes_of_ge (mem : List Byte) (loc : Nat) (bs : List Byte) (i : Nat)
    (h : loc + bs.length ≤ mem.length) (hi : loc + bs.length ≤ i) :
    (writeBytes mem loc bs)[i]? = mem[i]? := by
  unfold writeBytes
  rw [List.getElem?_append_right (by simp; omega)]
  simp only [List.length_append, List.length_take, List.getElem?_drop]
  congr 1
  omega

theorem readBytes_writeBytes_same (mem : List Byte) (loc : Nat) (bs : List Byte) :
    loc + bs.length ≤ mem.length → readBytes (writeBytes mem loc bs) loc bs.length = bs := by
  intro h
  unfold readBytes writeBytes
  rw [List.append_assoc, List.drop_append_of_le_length (by simp; omega)]
  have h1 : List.drop loc (List.take loc mem) = [] := by simp
  rw [h1, List.nil_append, List.take_left]

theorem readBytes_writeBytes_disjoint (mem : List Byte) (l1 : Nat) (bs : List Byte)
    (l2 w2 : Nat) (h : l1 + bs.length ≤ mem.length)
    (hd : l2 + w2 ≤ l1 ∨ l1 + bs.length ≤ l2) :
    readBytes (writeBytes mem l1 bs) l2 w2 = readBytes mem l2 w2 := by
  apply List.ext_getElem?
  intro i
  by_cases hi : i < w2
  · rw [getElem?_readBytes _ _ _ _ hi, getElem?_readBytes _ _ _ _ hi]
    rcases hd with hd | hd
    · exact getElem?_writeBytes_of_lt mem l1 bs _ h (by omega)
    · exact getElem?_writeBytes_of_ge mem l1 bs _ h (by omega)
  · have e1 : (readBytes (writeBytes mem l1 bs) l2 w2)[i]? = none := by
      apply List.getElem?_eq_none
      simp [readBytes]
      omega
    have e2 : (readBytes mem l2 w2)[i]? = none := by
      apply List.getElem?_eq_none
      simp [readBytes]
      omega
    rw [e1, e2]

/-! ## What one call does -/

theorem acquire_load_eq (e : Endian) (w : Width) (m : Machine) (o : Nat) :
    acquire_load e w m o =
      if validAccess m.mem o w.bytes then
        some (fromBytes e (readBytes m.mem o w.bytes),
          { mem := m.mem,
            trace := m.trace ++
              [Event.read o w.bytes (fromBytes e (readBytes m.mem o w.bytes)), Event.fence] })
      else none := by
  cases w
  · by_cases h : validAccess m.mem o 4
    · have hl := fromBytes_lt e (readBytes m.mem o 4)
      rw [readBytes_length _ _ _ h.1] at hl
      have hx : fromBytes e (readBytes m.mem o 4) < 18446744073709551616 := by omega
      simp [acquire_load, smp_load_acquire_int, READ_ONCE, __sync_synchronize,
        sizeof_unsigned_int, Width.bytes, h, hx]
    · simp [acquire_load, smp_load_acquire_int, READ_ONCE, sizeof_unsigned_int,
        Width.bytes, h]
  · by_cases h : validAccess m.mem o 8
    · simp [acquire_load, smp_load_acquire_long_int, READ_ONCE, __sync_synchronize,
        sizeof_unsigned_long_int, Width.bytes, h]
    · simp [acquire_load, smp_load_acquire_long_int, READ_ONCE, sizeof_unsigned_long_int,
        Width.bytes, h]

theorem release_store_eq (e : Endian) (w : Width) (m : Machine) (o v : Nat) :
    release_store e w m o v =
      if validAccess m.mem o w.bytes then
        some { mem := writeBytes m.mem o (toBytes e w.bytes (v % 2 ^ (8 * w.bytes))),
               trace := m.trace ++ [Event.write o w.bytes (v % 2 ^ (8 * w.bytes)), Event.fence] }
      else none := by
  cases w
  · by_cases h : validAccess m.mem o 4
    · simp [release_store, smp_store_release_int, WRITE_ONCE, __sync_synchronize,
        sizeof_unsigned_int, Width.bytes, h]
    · simp [release_store, smp_store_release_int, WRITE_ONCE, sizeof_unsigned_int,
        Width.bytes, h]
  · by_cases h : validAccess m.mem o 8
    · simp [release_store, smp_store_release_long_int, WRITE_ONCE, __sync_synchronize,
        sizeof_unsigned_long_int, Width.bytes, h]
    · simp [release_store, smp_store_release_long_int, WRITE_ONCE, sizeof_unsigned_long_int,
        Width.bytes, h]

theorem pow_bits (w : Width) : 2 ^ (8 * w.bytes) = 256 ^ w.bytes := by
  cases w <;> simp [Width.bytes, sizeof_unsigned_int, sizeof_unsigned_long_int]

theorem bytes_pos (w : Width) : w.bytes = 4 ∨ w.bytes = 8 := by
  cases w <;> simp [Width.bytes, sizeof_unsigned_int, sizeof_unsigned_long_int]

theorem writeBytes_toBytes_length (e : Endian) (mem : List Byte) (o w x : Nat)
    (h : o + w ≤ mem.length) : (writeBytes mem o (toBytes e w x)).length = mem.length := by
  apply writeBytes_length
  rw [toBytes_length]
  exact h

theorem readBytes_writeBytes_toBytes (e : Endian) (mem : List Byte) (o w x : Nat)
    (h : o + w ≤ mem.length) :
    readBytes (writeBytes mem o (toBytes e w x)) o w = toBytes e w x := by
  have h1 := readBytes_writeBytes_same mem o (toBytes e w x)
  rw [toBytes_length] at h1
  exact h1 h

theorem readBytes_writeBytes_toBytes_disjoint (e : Endian) (mem : List Byte)
    (o1 w1 x o2 w2 : Nat) (h : o1 + w1 ≤ mem.length) (hd : o2 + w2 ≤ o1 ∨ o1 + w1 ≤ o2) :
    readBytes (writeBytes mem o1 (toBytes e w1 x)) o2 w2 = readBytes mem o2 w2 := by
  apply readBytes_writeBytes_disjoint
  · rw [toBytes_length]
    exact h
  · rw [toBytes_length]
    exact hd

/-! ## The claims -/

/-- C1 (read-after-write in one context, both widths): at an offset that is in
bounds and naturally aligned for the width, a release store of a value `v` of
that width followed by an acquire load of the same width at the same offset
returns exactly `v`; for the 64-bit pair all 64 bits come back. -/
theorem read_after_write (e : Endian) (w : Width) (m : Machine) (o v : Nat)
    (hb : o + w.bytes ≤ m.mem.length) (ha : o % w.bytes = 0) (hv : v < 2 ^ (8 * w.bytes)) :
    ∃ m1, release_store e w m o v = some m1 ∧
      ∃ m2, acquire_load e w m1 o = some (v, m2) := by
  have hvalid : validAccess
      (writeBytes m.mem o (toBytes e w.bytes (v % 2 ^ (8 * w.bytes)))) o w.bytes :=
    ⟨by rw [writeBytes_toBytes_length e _ _ _ _ hb]; exact hb, ha⟩
  have hx : fromBytes e (readBytes
      (writeBytes m.mem o (toBytes e w.bytes (v % 2 ^ (8 * w.bytes)))) o w.bytes) = v := by
    rw [readBytes_writeBytes_toBytes e _ _ _ _ hb, fromBytes_toBytes, ← pow_bits,
      Nat.mod_mod, Nat.mod_eq_of_lt hv]
  rw [release_store_eq, if_pos ⟨hb, ha⟩]
  refine ⟨_, rfl, ?_⟩
  rw [acquire_load_eq]
  simp only [if_pos hvalid, hx]
  exact ⟨_, rfl⟩

/-- C1 at a concrete region: the hypotheses hold there and so does the conclusion. -/
theorem read_after_write_witness :
    (8 + Width.w64.bytes ≤ (zeroed 16).mem.length ∧ 8 % Width.w64.bytes = 0 ∧
      18446744073709551615 < 2 ^ (8 * Width.w64.bytes)) ∧
    ∃ m1, release_store Endian.big Width.w64 (zeroed 16) 8 18446744073709551615 = some m1 ∧
      ∃ m2, acquire_load Endian.big Width.w64 m1 8 = some (18446744073709551615, m2) :=
  ⟨by decide,
   read_after_write Endian.big Width.w64 (zeroed 16) 8 18446744073709551615
     (by decide) (by decide) (by decide)⟩

/-- C2 (evaluation of the code): every call of a release store of either width
that completes adds to the event sequence the write first and the full fence
after it. On a fresh 8-byte region at offset 0 with value 1 the events of
`smp_store_release_int` and of `smp_store_release_long_int` are the write
followed by the fence, not the fence followed by the write. -/
theorem store_release_write_then_fence :
    (∀ (e : Endian) (w : Width) (m : Machine) (o v : Nat),
      (release_store e w m o v).map (fun m1 => m1.trace) =
        if validAccess m.mem o w.bytes then
          some (m.trace ++ [Event.write o w.bytes (v % 2 ^ (8 * w.bytes)), Event.fence])
        else none) ∧
    (smp_store_release_int Endian.little (zeroed 8) 0 1).map (fun m => m.trace)
        = some [Event.write 0 4 1, Event.fence] ∧
    (smp_store_release_long_int Endian.little (zeroed 8) 0 1).map (fun m => m.trace)
        = some [Event.write 0 8 1, Event.fence] ∧
    (smp_store_release_int Endian.little (zeroed 8) 0 1).map (fun m => m.trace)
        ≠ some [Event.fence, Event.write 0 4 1] ∧
    (smp_store_release_long_int Endian.little (zeroed 8) 0 1).map (fun m => m.trace)
        ≠ some [Event.fence, Event.write 0 8 1] := by
  refine ⟨?_, by decide⟩
  intro e w m o v
  rw [release_store_eq]
  by_cases h : validAccess m.mem o w.bytes
  · simp only [if_pos h, Option.map_some']
  · simp only [if_neg h, Option.map_none']

/-- C3 (acquire load reads, then fences): at a valid offset one call of the
acquire load of either width performs exactly one read of the word at the
offset followed by one full fence, leaves the region as it was, and returns the
value the read obtained, which is the word held at the offset. -/
theorem acquire_load_read_then_fence (e : Endian) (w : Width) (m : Machine) (o : Nat)
    (hb : o + w.bytes ≤ m.mem.length) (ha : o % w.bytes = 0) :
    ∃ x m1, acquire_load e w m o = some (x, m1) ∧
      m1.trace = m.trace ++ [Event.read o w.bytes x, Event.fence] ∧
      x = fromBytes e (readBytes m.mem o w.bytes) := by
  rw [acquire_load_eq, if_pos ⟨hb, ha⟩]
  exact ⟨_, _, rfl, rfl, rfl⟩

/-- C3 at a concrete region: the hypotheses hold there and so does the conclusion. -/
theorem acquire_load_read_then_fence_witness :
    (4 + Width.w32.bytes ≤ (zeroed 8).mem.length ∧ 4 % Width.w32.bytes = 0) ∧
    ∃ x m1, acquire_load Endian.little Width.w32 (zeroed 8) 4 = some (x, m1) ∧
      m1.trace = (zeroed 8).trace ++ [Event.read 4 Width.w32.bytes x, Event.fence] ∧
      x = fromBytes Endian.little (readBytes (zeroed 8).mem 4 Width.w32.bytes) :=
  ⟨by decide,
   acquire_load_read_then_fence Endian.little Width.w32 (zeroed 8) 4 (by decide) (by decide)⟩

/-- C4 (width isolation of the 32-bit store): when `o` is 4-aligned and `o + 8`
is within the region, `smp_store_release_int` at `o` with any value (the call
converts it to `unsigned int`) succeeds and each of the bytes at `o+4`, `o+5`,
`o+6`, `o+7` is what it was before the call. -/
theorem store_int_keeps_upper_bytes (e : Endian) (m : Machine) (o v : Nat)
    (hb : o + 8 ≤ m.mem.length) (ha : o % 4 = 0) :
    ∃ m1, smp_store_release_int e m o v = some m1 ∧
      m1.mem[o + 4]? = m.mem[o + 4]? ∧ m1.mem[o + 5]? = m.mem[o + 5]? ∧
      m1.mem[o + 6]? = m.mem[o + 6]? ∧ m1.mem[o + 7]? = m.mem[o + 7]? := by
  have hb4 : o + 4 ≤ m.mem.length := by omega
  have h := release_store_eq e Width.w32 m o v
  rw [if_pos (show validAccess m.mem o Width.w32.bytes from ⟨hb4, ha⟩)] at h
  refine ⟨_, h, ?_, ?_, ?_, ?_⟩ <;>
    exact getElem?_writeBytes_of_ge _ _ _ _ (by rw [toBytes_length]; exact hb4)
      (by rw [toBytes_length]; simp [Width.bytes, sizeof_unsigned_int])

/-- C4 at a concrete region: the hypotheses hold there and so does the conclusion. -/
theorem store_int_keeps_upper_bytes_witness :
    (0 + 8 ≤ (zeroed 8).mem.length ∧ 0 % 4 = 0) ∧
    ∃ m1, smp_store_release_int Endian.little (zeroed 8) 0 4294967295 = some m1 ∧
      m1.mem[0 + 4]? = (zeroed 8).mem[0 + 4]? ∧ m1.mem[0 + 5]? = (zeroed 8).mem[0 + 5]? ∧
      m1.mem[0 + 6]? = (zeroed 8).mem[0 + 6]? ∧ m1.mem[0 + 7]? = (zeroed 8).mem[0 + 7]? :=
  ⟨by decide,
   store_int_keeps_upper_bytes Endian.little (zeroed 8) 0 4294967295
     (by decide) (by decide)⟩

/-- C5 (counterexample): offsets 0 and 4 are different, offset 0 is in bounds
and aligned for a 64-bit store and offset 4 for a 32-bit load, yet the 32-bit
acquire load at 4 returns 0 before the 64-bit release store of `2^64 - 1` at 0
and `2^32 - 1` after it. -/
theorem independence_fails_on_overlap :
    (0 : Nat) ≠ 4 ∧
    (0 + Width.w64.bytes ≤ (zeroed 8).mem.length ∧ 0 % Width.w64.bytes = 0) ∧
    (4 + Width.w32.bytes ≤ (zeroed 8).mem.length ∧ 4 % Width.w32.bytes = 0) ∧
    (smp_load_acquire_int Endian.little (zeroed 8) 4).map Prod.fst = some 0 ∧
    ((smp_store_release_long_int Endian.little (zeroed 8) 0 18446744073709551615).bind
      (fun m1 => smp_load_acquire_int Endian.little m1 4)).map Prod.fst = some 4294967295 := by
  decide

/-- C5 (amended, independence across offsets): for two different offsets, each
in bounds and naturally aligned for the width accessed there, when the store and
the load have the same width or the byte ranges they access do not overlap, the
release store succeeds and the acquire load at the second offset returns after
the store the value it returned before it. -/
theorem independence_across_offsets (e : Endian) (w1 w2 : Width) (m : Machine)
    (o1 o2 v : Nat) (hne : o1 ≠ o2)
    (hb1 : o1 + w1.bytes ≤ m.mem.length) (ha1 : o1 % w1.bytes = 0)
    (hb2 : o2 + w2.bytes ≤ m.mem.length) (ha2 : o2 % w2.bytes = 0)
    (hsep : w1 = w2 ∨ o2 + w2.bytes ≤ o1 ∨ o1 + w1.bytes ≤ o2) :
    ∃ m1, release_store e w1 m o1 v = some m1 ∧
      ∃ x mb ma, acquire_load e w2 m o2 = some (x, mb) ∧
        acquire_load e w2 m1 o2 = some (x, ma) := by
  have hd : o2 + w2.bytes ≤ o1 ∨ o1 + w1.bytes ≤ o2 := by
    rcases hsep with hw | hd
    · subst hw
      rcases bytes_pos w1 with h | h <;> rw [h] at ha1 ha2 ⊢ <;> omega
    · exact hd
  have hvalid : validAccess
      (writeBytes m.mem o1 (toBytes e w1.bytes (v % 2 ^ (8 * w1.bytes)))) o2 w2.bytes :=
    ⟨by rw [writeBytes_toBytes_length e _ _ _ _ hb1]; exact hb2, ha2⟩
  rw [release_store_eq, if_pos ⟨hb1, ha1⟩]
  refine ⟨_, rfl, ?_⟩
  rw [acquire_load_eq, if_pos ⟨hb2, ha2⟩, acquire_load_eq]
  simp only [if_pos hvalid, readBytes_writeBytes_toBytes_disjoint e _ _ _ _ _ _ hb1 hd]
  exact ⟨_, _, _, rfl, rfl⟩

/-- C5 at a concrete region: the hypotheses hold there and so does the conclusion. -/
theorem independence_across_offsets_witness :
    ((0 : Nat) ≠ 8 ∧
      (0 + Width.w32.bytes ≤ (zeroed 16).mem.length ∧ 0 % Width.w32.bytes = 0) ∧
      (8 + Width.w64.bytes ≤ (zeroed 16).mem.length ∧ 8 % Width.w64.bytes = 0) ∧
      (Width.w32 = Width.w64 ∨ 8 + Width.w64.bytes ≤ 0 ∨ 0 + Width.w32.bytes ≤ 8)) ∧
    ∃ m1, release_store Endian.little Width.w32 (zeroed 16) 0 7 = some m1 ∧
      ∃ x mb ma, acquire_load Endian.little Width.w64 (zeroed 16) 8 = some (x, mb) ∧
        acquire_load Endian.little Width.w64 m1 8 = some (x, ma) :=
  ⟨by decide,
   independence_across_offsets Endian.little Width.w32 Width.w64 (zeroed 16) 0 8 7
     (by decide) (by decide) (by decide) (by decide) (by decide) (by decide)⟩

/-- C6 (the 32-bit acquire load returns a uint32): at a valid 4-aligned offset
`o` the result of `smp_load_acquire_int` is below `2^32`, is the value of the
32-bit word held in bytes `o..o+3`, and is the same in every region that holds
the same four bytes at `o..o+3`, whatever its other bytes are. -/
theorem load_int_is_uint32 (e : Endian) (m : Machine) (o : Nat)
    (hb : o + 4 ≤ m.mem.length) (ha : o % 4 = 0) :
    ∃ x m1, smp_load_acquire_int e m o = some (x, m1) ∧ x < 2 ^ 32 ∧
      x = fromBytes e (readBytes m.mem o 4) ∧
      ∀ n : Machine, o + 4 ≤ n.mem.length → readBytes n.mem o 4 = readBytes m.mem o 4 →
        ∃ n1, smp_load_acquire_int e n o = some (x, n1) := by
  have h := acquire_load_eq e Width.w32 m o
  rw [if_pos (show validAccess m.mem o Width.w32.bytes from ⟨hb, ha⟩)] at h
  refine ⟨_, _, h, ?_, rfl, ?_⟩
  · have hl := fromBytes_lt e (readBytes m.mem o 4)
    rw [readBytes_length _ _ _ hb] at hl
    simp only [Width.bytes, sizeof_unsigned_int]
    omega
  · intro n hn hsame
    have h2 := acquire_load_eq e Width.w32 n o
    rw [if_pos (show validAccess n.mem o Width.w32.bytes from ⟨hn, ha⟩)] at h2
    simp only [Width.bytes, sizeof_unsigned_int] at h2 ⊢
    rw [hsame] at h2
    exact ⟨_, h2⟩

/-- C6 at a concrete region: the hypotheses hold there and so does the conclusion. -/
theorem load_int_is_uint32_witness :
    (4 + 4 ≤ (zeroed 12).mem.length ∧ 4 % 4 = 0) ∧
    ∃ x m1, smp_load_acquire_int Endian.big (zeroed 12) 4 = some (x, m1) ∧ x < 2 ^ 32 ∧
      x = fromBytes Endian.big (readBytes (zeroed 12).mem 4 4) ∧
      ∀ n : Machine, 4 + 4 ≤ n.mem.length →
        readBytes n.mem 4 4 = readBytes (zeroed 12).mem 4 4 →
        ∃ n1, smp_load_acquire_int Endian.big n 4 = some (x, n1) :=
  ⟨by decide, load_int_is_uint32 Endian.big (zeroed 12) 4 (by decide) (by decide)⟩

/-- C9 (no failure under the control-field invariant): when `offset + width`
is at most the region size and `offset` is a multiple of the width, the acquire
load and the release store of that width both complete (the undefined branch is
not taken), every memory event they perform lies inside the region, and the
release store returns a region of the same size. -/
theorem no_failure_when_valid (e : Endian) (w : Width) (m : Machine) (o v : Nat)
    (hb : o + w.bytes ≤ m.mem.length) (ha : o % w.bytes = 0) :
    (∃ x m1 evs, acquire_load e w m o = some (x, m1) ∧ m1.trace = m.trace ++ evs ∧
      ∀ ev ∈ evs, ev.inBounds m.mem.length) ∧
    (∃ m1 evs, release_store e w m o v = some m1 ∧ m1.trace = m.trace ++ evs ∧
      (∀ ev ∈ evs, ev.inBounds m.mem.length) ∧ m1.mem.length = m.mem.length) := by
  constructor
  · rw [acquire_load_eq, if_pos ⟨hb, ha⟩]
    refine ⟨_, _, _, rfl, rfl, ?_⟩
    intro ev hev
    simp only [List.mem_cons, List.mem_singleton, List.not_mem_nil, or_false] at hev
    rcases hev with h | h <;> subst h
    · exact hb
    · trivial
  · rw [release_store_eq, if_pos ⟨hb, ha⟩]
    refine ⟨_, _, rfl, rfl, ?_, writeBytes_toBytes_length e _ _ _ _ hb⟩
    intro ev hev
    simp only [List.mem_cons, List.mem_singleton, List.not_mem_nil, or_false] at hev
    rcases hev with h | h <;> subst h
    · exact hb
    · trivial

/-- C9 at a concrete region: the hypotheses hold there and so does the conclusion. -/
theorem no_failure_when_valid_witness :
    (8 + Width.w64.bytes ≤ (zeroed 16).mem.length ∧ 8 % Width.w64.bytes = 0) ∧
    (∃ x m1 evs, acquire_load Endian.little Width.w64 (zeroed 16) 8 = some (x, m1) ∧
      m1.trace = (zeroed 16).trace ++ evs ∧
      ∀ ev ∈ evs, ev.inBounds (zeroed 16).mem.length) ∧
    (∃ m1 evs, release_store Endian.little Width.w64 (zeroed 16) 8 3 = some m1 ∧
      m1.trace = (zeroed 16).trace ++ evs ∧
      (∀ ev ∈ evs, ev.inBounds (zeroed 16).mem.length) ∧
      m1.mem.length = (zeroed 16).mem.length) :=
  ⟨by decide,
   no_failure_when_valid Endian.little Width.w64 (zeroed 16) 8 3 (by decide) (by decide)⟩

/-- C10 (acquire loads are pure reads): at a valid offset an acquire load of
either width leaves every byte of the region unchanged, and a second acquire
load of the same width at the same offset, with no store in between, returns
the same value. -/
theorem acquire_load_pure (e : Endian) (w : Width) (m : Machine) (o : Nat)
    (hb : o + w.bytes ≤ m.mem.length) (ha : o % w.bytes = 0) :
    ∃ x m1, acquire_load e w m o = some (x, m1) ∧ m1.mem = m.mem ∧
      ∃ m2, acquire_load e w m1 o = some (x, m2) ∧ m2.mem = m.mem := by
  rw [acquire_load_eq, if_pos ⟨hb, ha⟩]
  refine ⟨_, _, rfl, rfl, ?_⟩
  rw [acquire_load_eq]
  simp only [if_pos (show validAccess m.mem o w.bytes from ⟨hb, ha⟩)]
  exact ⟨_, rfl, rfl⟩

/-- C10 at a concrete region: the hypotheses hold there and so does the conclusion. -/
theorem acquire_load_pure_witness :
    (0 + Width.w32.bytes ≤ (zeroed 4).mem.length ∧ 0 % Width.w32.bytes = 0) ∧
    ∃ x m1, acquire_load Endian.little Width.w32 (zeroed 4) 0 = some (x, m1) ∧
      m1.mem = (zeroed 4).mem ∧
      ∃ m2, acquire_load Endian.little Width.w32 m1 0 = some (x, m2) ∧
        m2.mem = (zeroed 4).mem :=
  ⟨by decide, acquire_load_pure Endian.little Width.w32 (zeroed 4) 0 (by decide) (by decide)⟩

/-! ## Producer and consumer on one field -/

theorem step_preserves (e : Endian) (w : Width) (o : Nat) (s s1 : System) (a : Action)
    (hinv : FieldInv e w o s) (hstep : step e w o s a = some s1) : FieldInv e w o s1 := by
  obtain ⟨hvalid, hfield, hle, hpw⟩ := hinv
  cases a with
  | produce v =>
    simp only [step] at hstep
    split at hstep
    case isFalse => exact absurd hstep (by simp)
    case isTrue hg =>
      rw [release_store_eq, if_pos hvalid] at hstep
      simp only [Option.some.injEq] at hstep
      subst hstep
      have hnew : fromBytes e (readBytes
          (writeBytes s.machine.mem o (toBytes e w.bytes (v % 2 ^ (8 * w.bytes)))) o w.bytes)
          = v := by
        rw [readBytes_writeBytes_toBytes e _ _ _ _ hvalid.1, fromBytes_toBytes, ← pow_bits,
          Nat.mod_mod, Nat.mod_eq_of_lt hg.2]
      refine ⟨?_, ?_, ?_, hpw⟩
      · exact ⟨by rw [writeBytes_toBytes_length e _ _ _ _ hvalid.1]; exact hvalid.1, hvalid.2⟩
      · exact le_of_eq hnew
      · intro x hx
        show x ≤ fromBytes e (readBytes (writeBytes _ _ _) _ _)
        rw [hnew]
        exact le_trans (le_trans (hle x hx) hfield) hg.1
  | consume =>
    simp only [step] at hstep
    rw [acquire_load_eq, if_pos hvalid] at hstep
    simp only [Option.some.injEq] at hstep
    subst hstep
    refine ⟨hvalid, hfield, ?_, ?_⟩
    · intro x hx
      simp only [List.mem_append, List.mem_singleton] at hx
      rcases hx with hx | hx
      · exact hle x hx
      · exact le_of_eq hx
    · rw [List.pairwise_append]
      refine ⟨hpw, List.pairwise_singleton _ _, ?_⟩
      intro a ha b hb
      simp only [List.mem_singleton] at hb
      rw [hb]
      exact hle a ha

theorem run_preserves (e : Endian) (w : Width) (o : Nat) (acts : List Action) :
    ∀ s s1 : System, FieldInv e w o s → run e w o s acts = some s1 → FieldInv e w o s1 := by
  induction acts with
  | nil =>
    intro s s1 hinv hrun
    simp only [run, Option.some.injEq] at hrun
    rw [← hrun]
    exact hinv
  | cons a acts ih =>
    intro s s1 hinv hrun
    simp only [run] at hrun
    cases hs : step e w o s a with
    | none => rw [hs] at hrun; exact absurd hrun (by simp)
    | some s2 =>
      rw [hs] at hrun
      exact ih s2 s1 (step_preserves e w o s s2 a hinv hs) hrun

theorem step_enabled (e : Endian) (w : Width) (o : Nat) (s : System)
    (hinv : FieldInv e w o s) :
    (step e w o s Action.consume).isSome ∧
    ∀ v, s.last ≤ v → v < 2 ^ (8 * w.bytes) → (step e w o s (Action.produce v)).isSome := by
  obtain ⟨hvalid, -, -, -⟩ := hinv
  constructor
  · simp only [step]
    rw [acquire_load_eq, if_pos hvalid]
    rfl
  · intro v h1 h2
    simp only [step]
    rw [if_pos ⟨h1, h2⟩, release_store_eq, if_pos hvalid]
    rfl

/-- C8 (counterexample): the 32-bit field at the valid offset 0 holds 100 when
the interleaving starts and the producer has stored nothing yet. The consumer
loads, the producer release-stores 1 (its only store, so no store of it is
smaller than an earlier one), the consumer loads again: the consumer observes
100 and then 1, a value smaller than one it observed earlier. -/
theorem monotonic_index_fails_on_stale_field :
    (0 + Width.w32.bytes ≤ staleStart.machine.mem.length ∧ 0 % Width.w32.bytes = 0) ∧
    staleStart.observed = [] ∧
    (run Endian.little Width.w32 0 staleStart
      [Action.consume, Action.produce 1, Action.consume]).map (fun s => s.observed)
        = some [100, 1] ∧
    ¬ List.Pairwise (fun a b : Nat => a ≤ b) [100, 1] := by
  decide

/-- C8 (amended, monotonic index): start with a control field at a valid offset
whose content is not greater than the producer's starting value (the value it
stored last, which every later store has to reach), and a consumer that has
observed nothing. After any interleaving of producer steps (a release store of
a value of the field's width not smaller than the one stored before) and
consumer steps (an acquire load of the same width), the values the consumer
observed never decrease; and in every state so reached the consumer's load and
every such producer store can be taken. -/
theorem monotonic_index (e : Endian) (w : Width) (o : Nat) (s0 s : System)
    (acts : List Action)
    (hb : o + w.bytes ≤ s0.machine.mem.length) (ha : o % w.bytes = 0)
    (hfield : fromBytes e (readBytes s0.machine.mem o w.bytes) ≤ s0.last)
    (hobs : s0.observed = [])
    (hrun : run e w o s0 acts = some s) :
    s.observed.Pairwise (fun a b => a ≤ b) ∧
    (step e w o s Action.consume).isSome ∧
    ∀ v, s.last ≤ v → v < 2 ^ (8 * w.bytes) → (step e w o s (Action.produce v)).isSome := by
  have h0 : FieldInv e w o s0 := by
    refine ⟨⟨hb, ha⟩, hfield, ?_, ?_⟩
    · rw [hobs]; intro x hx; exact absurd hx (List.not_mem_nil x)
    · rw [hobs]; exact List.Pairwise.nil
  have h1 := run_preserves e w o acts s0 s h0 hrun
  exact ⟨h1.2.2.2, step_enabled e w o s h1⟩

/-- C8 at a concrete region: the hypotheses hold there and so does the conclusion. -/
theorem monotonic_index_witness :
    (4 + Width.w32.bytes ≤ sampleStart.machine.mem.length ∧ 4 % Width.w32.bytes = 0 ∧
      fromBytes Endian.little (readBytes sampleStart.machine.mem 4 Width.w32.bytes)
        ≤ sampleStart.last ∧
      sampleStart.observed = [] ∧
      run Endian.little Width.w32 4 sampleStart
        [Action.consume, Action.produce 7, Action.consume] = some sampleEnd) ∧
    (sampleEnd.observed.Pairwise (fun a b => a ≤ b) ∧
      (step Endian.little Width.w32 4 sampleEnd Action.consume).isSome ∧
      ∀ v, sampleEnd.last ≤ v → v < 2 ^ (8 * Width.w32.bytes) →
        (step Endian.little Width.w32 4 sampleEnd (Action.produce v)).isSome) :=
  ⟨by decide,
   monotonic_index Endian.little Width.w32 4 sampleStart sampleEnd
     [Action.consume, Action.produce 7, Action.consume]
     (by decide) (by decide) (by decide) (by decide) (by decide)⟩

end Pybpfmap
